import Mathlib

/-
Verification of the repeatlint repetition linter (src/src-tauri/src/lint.rs and
src/src/main.rs) against its specification.

The embedding below translates the lint pipeline (token filter, inverted-index
builder, proximity scorer, annotated renderer) and the tokenizer resource cache
into Lean. Machine integers (usize) are modelled as Nat with the usize bounds
made explicit where overflow or saturation matters; the Rust HashMap is
modelled as an insertion-ordered association list (overwrite-on-insert), with
iteration-order questions handled by explicit permutation theorems; fallible
operations return Except.
-/

namespace Repeatlint

/-- A token produced by the external vibrato tokenizer. `surface` is the
surface text, `feature` the feature (CSV) string whose leading field is the
POS tag, `wordIdx` models the opaque lexical-identity key `WordIdx`, and
`start`/`stop` model `range_char()` (a half-open character range). -/
structure Token where
  surface : String
  feature : String
  wordIdx : Nat
  start : Nat
  stop : Nat
deriving DecidableEq

/-- The `Config` struct of lint.rs. `distance_threshold` is a usize in the
source; theorems that depend on the usize range take `distance_threshold ≤
usizeMax` as a hypothesis. -/
structure Config where
  distance_threshold : Nat
  proper_nouns : List String
  ignore_pos : List String
  ignore_words : List String
deriving DecidableEq

/-- `usize::MAX` on the 64-bit targets the program is built for. -/
def usizeMax : Nat := 2 ^ 64 - 1

/-! ## Tokenizer resource cache (lint.rs lines 82-101)

The cache is a `Mutex<OnceCell<(u64, Tokenizer)>>`. Inside the lock the code
is sequential, so we model the locked critical section as a pure function of
the cell contents. `OnceCell::take` removes the value and leaves the cell
empty; `OnceCell::set` succeeds only on an empty cell. The opaque tokenizer
resource is modelled as a `Nat`; `create_tokenizer` (which performs file I/O)
is modelled by its outcome, an `Except` value consumed only on a cache miss,
exactly as in the source where it is called only in the miss arm. The hash is
the already-computed `calculate_hash(&config)` value (`DefaultHasher` is
deterministic within a process, so the `new_hash` recomputed in the miss arm
equals `current_hash`). -/

/-- `OnceCell::set`: succeeds exactly when the cell is empty. -/
def onceSet (c : Option (Nat × Nat)) (v : Nat × Nat) : Except Unit (Option (Nat × Nat)) :=
  match c with
  | none => Except.ok (some v)
  | some _ => Except.error ()

/-- Outcome of the cache critical section of `lint`:
`ok cell tok` is normal completion with final cell contents and the tokenizer
returned by `get().unwrap()`; `err cell e` is the early `?`-return with the
construction error and the cell contents left behind; `panic` models any of
the `unwrap()` calls failing. -/
inductive StepResult where
  | ok (cell : Option (Nat × Nat)) (tok : Nat)
  | err (cell : Option (Nat × Nat)) (e : String)
  | panic
deriving DecidableEq

/-- The cache update `match` of `lint` (lines 85-101) followed by
`tokenizer_cell.get().unwrap()`. `take()` empties the cell first; the taken
value is matched: on a hash hit the pair is `set` back, otherwise (stale hash
or empty) the construction result decides between `set`ting the new pair and
an early error return. -/
def cacheLookup (cell : Option (Nat × Nat)) (currentHash : Nat)
    (create : Except String Nat) : StepResult :=
  let taken := cell
  let emptied : Option (Nat × Nat) := none
  match taken with
  | some (h, tok) =>
    if h = currentHash then
      match onceSet emptied (h, tok) with
      | Except.ok c2 =>
        match c2 with
        | some p => StepResult.ok (some p) p.2
        | none => StepResult.panic
      | Except.error _ => StepResult.panic
    else
      match create with
      | Except.ok t =>
        match onceSet emptied (currentHash, t) with
        | Except.ok c2 =>
          match c2 with
          | some p => StepResult.ok (some p) p.2
          | none => StepResult.panic
        | Except.error _ => StepResult.panic
      | Except.error e => StepResult.err emptied e
  | none =>
    match create with
    | Except.ok t =>
      match onceSet emptied (currentHash, t) with
      | Except.ok c2 =>
        match c2 with
        | some p => StepResult.ok (some p) p.2
        | none => StepResult.panic
      | Except.error _ => StepResult.panic
    | Except.error e => StepResult.err emptied e

/-- C1 counterexample: with a previously Populated slot `(hash 1, tokenizer 7)`
and a request whose config hashes to `2`, a failing construction leaves the
slot Empty — it is NOT still Populated with the prior pair, because `take()`
discarded that pair before the construction attempt. -/
theorem C1_counterexample :
    cacheLookup (some (1, 7)) 2 (Except.error "dict open failed") =
      StepResult.err none "dict open failed" ∧
    StepResult.err (none : Option (Nat × Nat)) "dict open failed" ≠
      StepResult.err (some (1, 7)) "dict open failed" := by
  constructor
  · rfl
  · decide

/-- C1 amended: if construction fails during a cache miss (slot Empty, or
Populated with a hash different from the current config hash), the error is
returned to the caller and the slot is left Empty; a previously Populated
slot with a stale hash has already been emptied by `take()` and is not
restored. -/
theorem C1_amended (cell : Option (Nat × Nat)) (cur : Nat) (e : String)
    (hmiss : cell = none ∨ ∃ h t, cell = some (h, t) ∧ h ≠ cur) :
    cacheLookup cell cur (Except.error e) = StepResult.err none e := by
  rcases hmiss with h0 | ⟨h, t, hc, hne⟩
  · subst h0; rfl
  · subst hc
    simp only [cacheLookup, if_neg hne]

/-- Witness for C1 amended at a concrete populated-with-stale-hash slot. -/
theorem C1_amended_witness :
    cacheLookup (some (1, 7)) 2 (Except.error "x") = StepResult.err none "x" :=
  C1_amended (some (1, 7)) 2 "x" (Or.inr ⟨1, 7, rfl, by decide⟩)

/-- C10: the critical section never panics — every `set()` happens on a cell
just emptied by `take()` and therefore succeeds, and whenever the `match`
completes without error the cell is Populated, so `get().unwrap()` succeeds;
moreover on normal completion the returned cell is Populated. -/
theorem C10_no_panic (cell : Option (Nat × Nat)) (cur : Nat)
    (create : Except String Nat) :
    cacheLookup cell cur create ≠ StepResult.panic ∧
    ∀ c t, cacheLookup cell cur create = StepResult.ok c t → ∃ p, c = some p := by
  rcases cell with _ | ⟨h, tok⟩
  · rcases create with t | e
    · exact ⟨by simp [cacheLookup, onceSet], by simp [cacheLookup, onceSet]⟩
    · exact ⟨by simp [cacheLookup, onceSet], by simp [cacheLookup, onceSet]⟩
  · by_cases hh : h = cur
    · refine ⟨?_, ?_⟩
      · simp [cacheLookup, onceSet, hh]
      · simp [cacheLookup, onceSet, hh]
    · rcases create with t | e
      · exact ⟨by simp [cacheLookup, onceSet, hh], by simp [cacheLookup, onceSet, hh]⟩
      · exact ⟨by simp [cacheLookup, onceSet, hh], by simp [cacheLookup, onceSet, hh]⟩

/-- Witness for C10 at a concrete populated cell and successful construction. -/
theorem C10_witness :
    cacheLookup (some (1, 7)) 1 (Except.ok 9) ≠ StepResult.panic ∧
    (∃ p, (some ((1 : Nat), (7 : Nat))) = some p) := by
  refine ⟨(C10_no_panic (some (1, 7)) 1 (Except.ok 9)).1, ?_⟩
  exact (C10_no_panic (some (1, 7)) 1 (Except.ok 9)).2 (some (1, 7)) 7 rfl

/-! ## Token filter (lint.rs lines 114-124)

`token.feature().split_once(',')` yields the text before the first comma, or
the whole feature string when it has no comma; that leading field is the POS
tag compared against `ignore_pos`, and the surface is compared against
`ignore_words`, both by exact string equality. -/

/-- Characters of a string before its first comma (all of them if none). -/
def takeUntilComma : List Char → List Char
  | [] => []
  | c :: rest => if c = ',' then [] else c :: takeUntilComma rest

/-- The leading component of a feature string: `split_once(',')` prefix, or
the whole string when there is no comma. -/
def posOf (feature : String) : String :=
  String.mk (takeUntilComma feature.toList)

/-- The filter of the index-building loop: a token is kept (contributes to the
inverted index) unless its POS leading component is in `ignore_pos` or its
surface is in `ignore_words` (the two `continue` branches). -/
def keepToken (config : Config) (t : Token) : Bool :=
  if config.ignore_pos.any (fun s => s = posOf t.feature) then false
  else if config.ignore_words.any (fun w => w = t.surface) then false
  else true

/-! ## Inverted index builder (lint.rs lines 110-132)

`index.entry(word_idx).or_default().push(range_char())` appends the range to
the existing group for that word, creating the group on first sight. The
HashMap is modelled as an association list in first-insertion order; theorems
about iteration order quantify over permutations of this list. The `surfaces`
map built alongside is never read afterwards and is omitted. -/

/-- `entry(w).or_default().push(r)`: append to the group keyed `w`, creating
it at the end when absent. -/
def indexInsert (w : Nat) (r : Nat × Nat) :
    List (Nat × List (Nat × Nat)) → List (Nat × List (Nat × Nat))
  | [] => [(w, [r])]
  | g :: rest => if g.1 = w then (g.1, g.2 ++ [r]) :: rest else g :: indexInsert w r rest

/-- The index-building loop over the token stream, from an accumulator. -/
def buildIndexFrom (config : Config) :
    List (Nat × List (Nat × Nat)) → List Token → List (Nat × List (Nat × Nat))
  | acc, [] => acc
  | acc, t :: rest =>
    buildIndexFrom config
      (if keepToken config t then indexInsert t.wordIdx (t.start, t.stop) acc else acc) rest

/-- The inverted index built from the full token stream. -/
def buildIndex (config : Config) (tokens : List Token) : List (Nat × List (Nat × Nat)) :=
  buildIndexFrom config [] tokens

/-! ## Proximity scorer (lint.rs lines 134-156) -/

/-- The symmetric pair distance
`min(abs_diff(ri.start, rj.end), abs_diff(ri.end, rj.start))`. -/
def pairDist (ri rj : Nat × Nat) : Nat :=
  min (Nat.dist ri.1 rj.2) (Nat.dist ri.2 rj.1)

/-- The inner scoring loop: starting from `init` (`usize::MAX` in the source),
fold `min` over `f j` for every `j` in the list not satisfying the skip
predicate `p` (which is `i == j` in the source). -/
def loopMin (p : Nat → Prop) [DecidablePred p] (f : Nat → Nat) : Nat → List Nat → Nat
  | init, [] => init
  | init, j :: rest => loopMin p f (if p j then init else min init (f j)) rest

/-- `min_dist` computed for occurrence `i` of a group with range list `rs`:
the inner `for j in 0..ranges.len()` loop of the scorer. -/
def minDistAt (rs : List (Nat × Nat)) (i : Nat) : Nat :=
  loopMin (fun j => i = j) (fun j => pairDist (rs.getD i (0, 0)) (rs.getD j (0, 0)))
    usizeMax (List.range rs.length)

/-- The entries `(ranges[i].start, min_dist i)` inserted for one group by the
outer `for i in 0..ranges.len()` loop. -/
def groupAnns (rs : List (Nat × Nat)) : List (Nat × Nat) :=
  (List.range rs.length).map (fun i => ((rs.getD i (0, 0)).1, minDistAt rs i))

/-- `HashMap::insert` on the association-list model: overwrite in place when
the key is present, append otherwise. -/
def mapInsert (k v : Nat) : List (Nat × Nat) → List (Nat × Nat)
  | [] => [(k, v)]
  | p :: rest => if p.1 = k then (k, v) :: rest else p :: mapInsert k v rest

/-- Insert a list of key-value pairs left to right. -/
def insertAll : List (Nat × Nat) → List (Nat × Nat) → List (Nat × Nat)
  | m, [] => m
  | m, kv :: rest => insertAll (mapInsert kv.1 kv.2 m) rest

/-- The scorer's outer loop over the groups of the index. -/
def scoreGroups : List (Nat × Nat) → List (Nat × List (Nat × Nat)) → List (Nat × Nat)
  | m, [] => m
  | m, g :: rest => scoreGroups (insertAll m (groupAnns g.2)) rest

/-- The full `annotations` map built by the scorer from the index. -/
def scoreIndex (index : List (Nat × List (Nat × Nat))) : List (Nat × Nat) :=
  scoreGroups [] index

/-- `annotations.get(&start)` on the association-list model. -/
def annLookup (s : Nat) : List (Nat × Nat) → Option Nat
  | [] => none
  | p :: rest => if s = p.1 then some p.2 else annLookup s rest

/-- All scorer entries of an index, concatenated in group order (the map
contents before overwrite resolution). -/
def annList (index : List (Nat × List (Nat × Nat))) : List (Nat × Nat) :=
  index.flatMap (fun g => groupAnns g.2)

/-- All range start offsets stored in the index, in group order. -/
def allStarts (index : List (Nat × List (Nat × Nat))) : List Nat :=
  index.flatMap (fun g => g.2.map Prod.fst)

/-! ## Annotated renderer (lint.rs lines 158-182)

`html_escape::encode_text` escapes exactly the three characters `&`, `<`,
`>`; it is applied to both the feature (emitted inside a single-quoted
`title` attribute) and the surface (emitted as element content). The
single-quote character is written via its code point to keep the markup
strings readable as data. -/

/-- The single-quote character `U+0027` used as the attribute delimiter. -/
def sq : String := String.singleton (Char.ofNat 39)

/-- `HTML_HEAD` of lint.rs. -/
def HTML_HEAD : String := "<div class=\"novel-body\">"

/-- `HTML_FOOT` of lint.rs. -/
def HTML_FOOT : String := "</div>"

/-- Per-character escaping of `html_escape::encode_text`. -/
def escapeChar (c : Char) : String :=
  if c = '&' then "&amp;"
  else if c = '<' then "&lt;"
  else if c = '>' then "&gt;"
  else String.singleton c

/-- `html_escape::encode_text`: escape `&`, `<` and `>`, leave every other
character (including quotes) unchanged. -/
def encode_text (s : String) : String :=
  String.join (s.toList.map escapeChar)

/-- The class attribute value chosen by the renderer:
`annotations.get(&start).is_some_and(|a| a.distance < distance_threshold)`. -/
def classOf (config : Config) (ann : List (Nat × Nat)) (s : Nat) : String :=
  match annLookup s ann with
  | some d => if d < config.distance_threshold then "alert" else ""
  | none => ""

/-- The markup emitted for one token: the three `write!` calls of the loop
body, with `title` and `class` single-quoted. -/
def spanHtml (title cls content : String) : String :=
  "<span title=" ++ sq ++ title ++ sq ++ " class=" ++ sq ++ cls ++ sq ++ ">" ++
    content ++ "</span>" ++ "<span class=" ++ sq ++ "separator" ++ sq ++ ">|</span>"

/-- The rendering of one token from the annotation map. -/
def renderToken (config : Config) (ann : List (Nat × Nat)) (t : Token) : String :=
  spanHtml (encode_text t.feature) (classOf config ann t.start) (encode_text t.surface)

/-- The render loop over the token stream, accumulating the output buffer. -/
def renderBody (config : Config) (ann : List (Nat × Nat)) : String → List Token → String
  | acc, [] => acc
  | acc, t :: rest => renderBody config ann (acc ++ renderToken config ann t) rest

/-- The full rendered document for a given annotation map. -/
def renderWith (config : Config) (ann : List (Nat × Nat)) (tokens : List Token) : String :=
  renderBody config ann HTML_HEAD tokens ++ HTML_FOOT

/-- The whole lint pipeline on a token stream: build the inverted index,
score it, render the original stream. -/
def lintHtml (config : Config) (tokens : List Token) : String :=
  renderWith config (scoreIndex (buildIndex config tokens)) tokens

/-- Concatenation of a list of strings. -/
def strConcat : List String → String
  | [] => ""
  | s :: rest => s ++ strConcat rest

/-- C4: the rendered classification is alert iff the computed distance is
strictly below `distance_threshold`; a distance equal to the threshold is not
alerted, and a distance of `threshold − 1` is alerted. -/
theorem C4_alert_iff (config : Config) (ann : List (Nat × Nat)) (s : Nat) :
    (classOf config ann s = "alert" ↔
      ∃ d, annLookup s ann = some d ∧ d < config.distance_threshold) ∧
    (annLookup s ann = some config.distance_threshold → classOf config ann s = "") ∧
    (∀ d, annLookup s ann = some d → d + 1 = config.distance_threshold →
      classOf config ann s = "alert") := by
  refine ⟨?_, ?_, ?_⟩
  · cases h : annLookup s ann with
    | none => simp [classOf, h]
    | some d =>
      by_cases hd : d < config.distance_threshold
      · simp [classOf, h, hd]
      · simp [classOf, h, hd]
  · intro h
    simp [classOf, h]
  · intro d h hd
    have : d < config.distance_threshold := by omega
    simp [classOf, h, this]

/-- Witness for C4 at a concrete annotation map and threshold. -/
theorem C4_witness : classOf ⟨5, [], [], []⟩ [(0, 4)] 0 = "alert" :=
  ((C4_alert_iff ⟨5, [], [], []⟩ [(0, 4)] 0).1).mpr ⟨4, rfl, by decide⟩

/-! ## Lemmas about the inner scoring loop -/

/-- The loop result never exceeds its initial value. -/
theorem loopMin_le_init (p : Nat → Prop) [DecidablePred p] (f : Nat → Nat) :
    ∀ (l : List Nat) (init : Nat), loopMin p f init l ≤ init := by
  intro l
  induction l with
  | nil => intro init; exact Nat.le_refl _
  | cons a rest ih =>
    intro init
    simp only [loopMin]
    by_cases hp : p a
    · rw [if_pos hp]; exact ih init
    · rw [if_neg hp]; exact Nat.le_trans (ih _) (Nat.min_le_left _ _)

/-- The loop result is a lower bound of `f` on every non-skipped index. -/
theorem loopMin_le (p : Nat → Prop) [DecidablePred p] (f : Nat → Nat) (j : Nat) :
    ∀ (l : List Nat) (init : Nat), j ∈ l → ¬ p j → loopMin p f init l ≤ f j := by
  intro l
  induction l with
  | nil => intro init hj _; cases hj
  | cons a rest ih =>
    intro init hj hpj
    simp only [loopMin]
    rcases List.mem_cons.mp hj with rfl | hmem
    · rw [if_neg hpj]
      exact Nat.le_trans (loopMin_le_init p f rest _) (Nat.min_le_right _ _)
    · by_cases hp : p a
      · rw [if_pos hp]; exact ih _ hmem hpj
      · rw [if_neg hp]; exact ih _ hmem hpj

/-- The loop result is either the initial value or attained at a non-skipped
index of the list. -/
theorem loopMin_cases (p : Nat → Prop) [DecidablePred p] (f : Nat → Nat) :
    ∀ (l : List Nat) (init : Nat),
      loopMin p f init l = init ∨ ∃ j ∈ l, ¬ p j ∧ loopMin p f init l = f j := by
  intro l
  induction l with
  | nil => intro init; exact Or.inl rfl
  | cons a rest ih =>
    intro init
    simp only [loopMin]
    by_cases hp : p a
    · rw [if_pos hp]
      rcases ih init with h | ⟨j, hj, hpj, he⟩
      · exact Or.inl h
      · exact Or.inr ⟨j, List.mem_cons_of_mem _ hj, hpj, he⟩
    · rw [if_neg hp]
      rcases ih (min init (f a)) with h | ⟨j, hj, hpj, he⟩
      · rcases Nat.le_total init (f a) with hle | hle
        · exact Or.inl (h.trans (Nat.min_eq_left hle))
        · exact Or.inr ⟨a, List.mem_cons_self _ _, hp, h.trans (Nat.min_eq_right hle)⟩
      · exact Or.inr ⟨j, List.mem_cons_of_mem _ hj, hpj, he⟩

/-- The pair distance is bounded by any bound on all four endpoints. -/
theorem pairDist_le {M : Nat} {r r' : Nat × Nat} (h1 : r.1 ≤ M) (_h2 : r.2 ≤ M)
    (_h3 : r'.1 ≤ M) (h4 : r'.2 ≤ M) : pairDist r r' ≤ M := by
  simp only [pairDist, Nat.dist]
  omega

/-! ## Lemmas about the annotation map model -/

/-- Looking up the freshly inserted key returns the new value. -/
theorem annLookup_mapInsert_self (k v : Nat) :
    ∀ m, annLookup k (mapInsert k v m) = some v := by
  intro m
  induction m with
  | nil => simp [mapInsert, annLookup]
  | cons p rest ih =>
    simp only [mapInsert]
    by_cases h : p.1 = k
    · rw [if_pos h]; simp [annLookup]
    · rw [if_neg h]
      simp only [annLookup]
      rw [if_neg (fun he => h he.symm)]
      exact ih

/-- Inserting one key does not change lookups of other keys. -/
theorem annLookup_mapInsert_ne (k v s : Nat) (hne : s ≠ k) :
    ∀ m, annLookup s (mapInsert k v m) = annLookup s m := by
  intro m
  induction m with
  | nil => simp [mapInsert, annLookup, hne]
  | cons p rest ih =>
    simp only [mapInsert]
    by_cases h : p.1 = k
    · rw [if_pos h]
      simp only [annLookup]
      rw [if_neg hne, if_neg (fun hs => hne (hs.trans h))]
    · rw [if_neg h]
      simp only [annLookup]
      by_cases hs : s = p.1
      · rw [if_pos hs, if_pos hs]
      · rw [if_neg hs, if_neg hs]; exact ih

/-- A key absent from an association list looks up to `none`. -/
theorem annLookup_eq_none {s : Nat} :
    ∀ {l : List (Nat × Nat)}, s ∉ l.map Prod.fst → annLookup s l = none := by
  intro l
  induction l with
  | nil => intro _; rfl
  | cons p rest ih =>
    intro h
    simp only [List.map_cons, List.mem_cons, not_or] at h
    simp only [annLookup]
    rw [if_neg h.1]
    exact ih h.2

/-- Inserting pairs whose keys avoid `s` does not change the lookup of `s`. -/
theorem annLookup_insertAll_not_mem (s : Nat) :
    ∀ (l m : List (Nat × Nat)), s ∉ l.map Prod.fst →
      annLookup s (insertAll m l) = annLookup s m := by
  intro l
  induction l with
  | nil => intro m _; rfl
  | cons kv rest ih =>
    intro m h
    simp only [List.map_cons, List.mem_cons, not_or] at h
    simp only [insertAll]
    rw [ih _ h.2, annLookup_mapInsert_ne _ _ _ h.1]

/-- With pairwise distinct keys, inserting a batch of pairs makes each of
them visible, and leaves other keys alone. -/
theorem annLookup_insertAll_nodup (s : Nat) :
    ∀ (l m : List (Nat × Nat)), (l.map Prod.fst).Nodup →
      annLookup s (insertAll m l) =
        (match annLookup s l with
         | some v => some v
         | none => annLookup s m) := by
  intro l
  induction l with
  | nil => intro m _; rfl
  | cons kv rest ih =>
    intro m hnd
    rw [List.map_cons, List.nodup_cons] at hnd
    simp only [insertAll]
    by_cases hs : s = kv.1
    · rw [ih _ hnd.2]
      have hrest : annLookup s rest = none :=
        annLookup_eq_none (by rw [hs]; exact hnd.1)
      rw [hrest]
      have hins : annLookup s (mapInsert kv.1 kv.2 m) = some kv.2 := by
        rw [hs]; exact annLookup_mapInsert_self _ _ _
      rw [hins]
      simp only [annLookup, if_pos hs]
    · rw [ih _ hnd.2, annLookup_mapInsert_ne _ _ _ hs]
      simp only [annLookup, if_neg hs]

/-- With pairwise distinct keys, a pair of the list is found by lookup. -/
theorem annLookup_mem_nodup {k v : Nat} :
    ∀ {l : List (Nat × Nat)}, (l.map Prod.fst).Nodup → (k, v) ∈ l →
      annLookup k l = some v := by
  intro l
  induction l with
  | nil => intro _ h; cases h
  | cons p rest ih =>
    intro hnd hm
    rw [List.map_cons, List.nodup_cons] at hnd
    rcases List.mem_cons.mp hm with rfl | hmem
    · simp [annLookup]
    · have hk : k ∈ rest.map Prod.fst := List.mem_map.mpr ⟨(k, v), hmem, rfl⟩
      have hne : k ≠ p.1 := fun he => hnd.1 (he ▸ hk)
      simp only [annLookup, if_neg hne]
      exact ih hnd.2 hmem

/-- With pairwise distinct keys, lookup is invariant under permutation. -/
theorem annLookup_perm (s : Nat) {l₁ l₂ : List (Nat × Nat)} (hp : l₁.Perm l₂) :
    (l₁.map Prod.fst).Nodup → annLookup s l₁ = annLookup s l₂ := by
  induction hp with
  | nil => intro _; rfl
  | cons x p ih =>
    intro hnd
    rw [List.map_cons, List.nodup_cons] at hnd
    simp only [annLookup]
    by_cases hs : s = x.1
    · rw [if_pos hs, if_pos hs]
    · rw [if_neg hs, if_neg hs]; exact ih hnd.2
  | swap x y l =>
    intro hnd
    simp only [List.map_cons, List.nodup_cons, List.mem_cons, not_or] at hnd
    simp only [annLookup]
    by_cases hsy : s = y.1
    · have hsx : ¬ s = x.1 := fun hsx => hnd.1.1 (hsy.symm.trans hsx)
      rw [if_pos hsy, if_neg hsx, if_pos hsy]
    · by_cases hsx : s = x.1
      · rw [if_neg hsy, if_pos hsx, if_pos hsx]
      · rw [if_neg hsy, if_neg hsx, if_neg hsx, if_neg hsy]
  | trans p₁ p₂ ih₁ ih₂ =>
    intro hnd
    have hnd₂ := ((p₁.map Prod.fst).nodup_iff).mp hnd
    exact (ih₁ hnd).trans (ih₂ hnd₂)

/-- Batch insertion decomposes over append. -/
theorem insertAll_append :
    ∀ (l₁ l₂ m : List (Nat × Nat)),
      insertAll m (l₁ ++ l₂) = insertAll (insertAll m l₁) l₂ := by
  intro l₁
  induction l₁ with
  | nil => intro l₂ m; rfl
  | cons kv rest ih =>
    intro l₂ m
    simp only [List.cons_append, insertAll]
    exact ih _ _

/-- The scorer's outer loop is batch insertion of all group entries. -/
theorem scoreGroups_eq :
    ∀ (index : List (Nat × List (Nat × Nat))) (m : List (Nat × Nat)),
      scoreGroups m index = insertAll m (annList index) := by
  intro index
  induction index with
  | nil => intro m; rfl
  | cons g rest ih =>
    intro m
    simp only [scoreGroups, annList, List.flatMap_cons]
    rw [insertAll_append, ih]
    rfl

/-! ## Keys of the scorer output -/

/-- Indexing over `range` reconstructs the list. -/
theorem map_getD_range (d : Nat × Nat) :
    ∀ rs : List (Nat × Nat), (List.range rs.length).map (fun i => rs.getD i d) = rs := by
  intro rs
  induction rs with
  | nil => rfl
  | cons a t ih =>
    rw [List.length_cons, List.range_succ_eq_map, List.map_cons, List.map_map]
    simp only [Function.comp_def, List.getD_cons_succ, List.getD_cons_zero]
    rw [ih]

/-- The keys of one group's scorer entries are the group's start offsets. -/
theorem groupAnns_keys (rs : List (Nat × Nat)) :
    (groupAnns rs).map Prod.fst = rs.map Prod.fst := by
  unfold groupAnns
  rw [List.map_map]
  have h : (Prod.fst ∘ fun i => ((rs.getD i (0, 0)).1, minDistAt rs i)) =
      (Prod.fst ∘ fun i => rs.getD i (0, 0)) := rfl
  rw [h, ← List.map_map, map_getD_range]

/-- The keys of all scorer entries are exactly the start offsets of the
index. -/
theorem annList_keys :
    ∀ index : List (Nat × List (Nat × Nat)),
      (annList index).map Prod.fst = allStarts index := by
  intro index
  induction index with
  | nil => rfl
  | cons g rest ih =>
    have h1 : annList (g :: rest) = groupAnns g.2 ++ annList rest := by
      simp [annList]
    have h2 : allStarts (g :: rest) = g.2.map Prod.fst ++ allStarts rest := by
      simp [allStarts]
    rw [h1, h2, List.map_append, groupAnns_keys, ih]

/-- With pairwise distinct start offsets, the scorer's map lookup agrees with
first-match lookup in the concatenated group entries. -/
theorem annLookup_scoreIndex {index : List (Nat × List (Nat × Nat))}
    (hnd : (allStarts index).Nodup) (s : Nat) :
    annLookup s (scoreIndex index) = annLookup s (annList index) := by
  have hkeys : ((annList index).map Prod.fst).Nodup := by
    rw [annList_keys]; exact hnd
  unfold scoreIndex
  rw [scoreGroups_eq, annLookup_insertAll_nodup s _ _ hkeys]
  cases h : annLookup s (annList index) with
  | none => rfl
  | some v => rfl

/-- A start offset absent from the index is absent from the scorer's map. -/
theorem annLookup_scoreIndex_none {index : List (Nat × List (Nat × Nat))} {s : Nat}
    (hs : s ∉ allStarts index) :
    annLookup s (scoreIndex index) = none := by
  have h : annLookup s (insertAll [] (annList index)) = annLookup s [] :=
    annLookup_insertAll_not_mem s (annList index) []
      (by rw [annList_keys]; exact hs)
  unfold scoreIndex
  rw [scoreGroups_eq, h]
  rfl

/-- C3: for every group of size at least 2 in an index whose start offsets
are pairwise distinct and whose range endpoints fit in usize, the scorer
computes for occurrence `i` exactly the minimum over all `j ≠ i` of
`min(|s_i − e_j|, |e_i − s_j|)`, and records an entry with that distance
keyed by `s_i` in the annotation map. -/
theorem C3_scorer_min_dist (index : List (Nat × List (Nat × Nat)))
    (hnd : (allStarts index).Nodup)
    (hbound : ∀ g ∈ index, ∀ r ∈ g.2, r.1 ≤ usizeMax ∧ r.2 ≤ usizeMax)
    (g : Nat × List (Nat × Nat)) (hg : g ∈ index)
    (hlen : 2 ≤ g.2.length) (i : Nat) (hi : i < g.2.length) :
    (∀ j, j < g.2.length → j ≠ i →
        minDistAt g.2 i ≤ pairDist (g.2.getD i (0, 0)) (g.2.getD j (0, 0))) ∧
    (∃ j, j < g.2.length ∧ j ≠ i ∧
        minDistAt g.2 i = pairDist (g.2.getD i (0, 0)) (g.2.getD j (0, 0))) ∧
    annLookup (g.2.getD i (0, 0)).1 (scoreIndex index) = some (minDistAt g.2 i) := by
  have hbmem : ∀ j, j < g.2.length → g.2.getD j (0, 0) ∈ g.2 := by
    intro j hj
    rw [List.getD_eq_getElem _ _ hj]
    exact List.getElem_mem _
  have hfb : ∀ j, j < g.2.length →
      pairDist (g.2.getD i (0, 0)) (g.2.getD j (0, 0)) ≤ usizeMax := by
    intro j hj
    have hbi := hbound g hg _ (hbmem i hi)
    have hbj := hbound g hg _ (hbmem j hj)
    exact pairDist_le hbi.1 hbi.2 hbj.1 hbj.2
  refine ⟨?_, ?_, ?_⟩
  · intro j hj hne
    exact loopMin_le _ _ j _ _ (List.mem_range.mpr hj) (fun h => hne h.symm)
  · have hj0 : ∃ j0, j0 < g.2.length ∧ j0 ≠ i := by
      rcases Nat.eq_zero_or_pos i with hz | hp
      · exact ⟨1, by omega, by omega⟩
      · exact ⟨0, by omega, by omega⟩
    rcases hj0 with ⟨j0, hj0l, hj0n⟩
    rcases loopMin_cases (fun j => i = j)
        (fun j => pairDist (g.2.getD i (0, 0)) (g.2.getD j (0, 0)))
        (List.range g.2.length) usizeMax with h | ⟨j, hj, hpj, he⟩
    · refine ⟨j0, hj0l, hj0n, ?_⟩
      have hle : minDistAt g.2 i ≤ pairDist (g.2.getD i (0, 0)) (g.2.getD j0 (0, 0)) :=
        loopMin_le _ _ j0 _ _ (List.mem_range.mpr hj0l) (fun hh => hj0n hh.symm)
      have hge := hfb j0 hj0l
      have : minDistAt g.2 i = usizeMax := h
      omega
    · exact ⟨j, List.mem_range.mp hj, fun hji => hpj hji.symm, he⟩
  · have hmem : ((g.2.getD i (0, 0)).1, minDistAt g.2 i) ∈ groupAnns g.2 :=
      List.mem_map.mpr ⟨i, List.mem_range.mpr hi, rfl⟩
    have hml : ((g.2.getD i (0, 0)).1, minDistAt g.2 i) ∈ annList index :=
      List.mem_flatMap.mpr ⟨g, hg, hmem⟩
    rw [annLookup_scoreIndex hnd]
    exact annLookup_mem_nodup (by rw [annList_keys]; exact hnd) hml

/-- Witness for C3 on a two-occurrence group at concrete ranges. -/
theorem C3_witness :
    annLookup 0 (scoreIndex [(0, [(0, 1), (3, 4)])]) =
      some (minDistAt [(0, 1), (3, 4)] 0) :=
  (C3_scorer_min_dist [(0, [(0, 1), (3, 4)])] (by decide) (by decide)
    (0, [(0, 1), (3, 4)]) (by decide) (by decide) 0 (by decide)).2.2

/-! ## Singleton groups -/

/-- The scorer's inner loop over a one-element group never updates
`min_dist`, which stays `usize::MAX`. -/
theorem minDistAt_singleton (r : Nat × Nat) : minDistAt [r] 0 = usizeMax := by
  have h1 : List.range (List.length [r]) = [0] := rfl
  unfold minDistAt
  rw [h1]
  simp [loopMin]

/-- A singleton group contributes exactly one entry, with distance
`usize::MAX`. -/
theorem groupAnns_singleton (r : Nat × Nat) :
    groupAnns [r] = [(r.1, usizeMax)] := by
  have h1 : List.range (List.length [r]) = [0] := rfl
  unfold groupAnns
  rw [h1, List.map_singleton, List.getD_cons_zero, minDistAt_singleton]

/-- With distinct starts, the sole occurrence of a singleton group maps to
distance `usize::MAX` in the scorer output. -/
theorem singleton_lookup {index : List (Nat × List (Nat × Nat))}
    (hnd : (allStarts index).Nodup) {g : Nat × List (Nat × Nat)} (hg : g ∈ index)
    {r : Nat × Nat} (hr : g.2 = [r]) :
    annLookup r.1 (scoreIndex index) = some usizeMax := by
  rw [annLookup_scoreIndex hnd]
  apply annLookup_mem_nodup (by rw [annList_keys]; exact hnd)
  refine List.mem_flatMap.mpr ⟨g, hg, ?_⟩
  rw [hr, groupAnns_singleton]
  exact List.mem_singleton_self _

/-- C5 counterexample: for a document whose single kept token forms a
singleton group at range `[3, 4)`, the annotation map DOES contain an entry
keyed by that group's sole start offset (with distance `usize::MAX`), so the
map is not free of entries for singleton groups. -/
theorem C5_counterexample :
    annLookup 3 (scoreIndex (buildIndex ⟨5, [], [], []⟩ [⟨"w", "n", 0, 3, 4⟩])) =
      some usizeMax ∧
    annLookup 3 (scoreIndex (buildIndex ⟨5, [], [], []⟩ [⟨"w", "n", 0, 3, 4⟩])) ≠
      none := by
  refine ⟨by decide, by decide⟩

/-- C5 amended: for every singleton group (in an index with pairwise distinct
starts) the scorer emits exactly one annotation for the sole occurrence,
keyed by its start, with distance `usize::MAX` — rather than emitting none. -/
theorem C5_amended (index : List (Nat × List (Nat × Nat)))
    (hnd : (allStarts index).Nodup) (g : Nat × List (Nat × Nat)) (hg : g ∈ index)
    (r : Nat × Nat) (hr : g.2 = [r]) :
    annLookup r.1 (scoreIndex index) = some usizeMax :=
  singleton_lookup hnd hg hr

/-- Witness for C5 amended on a concrete singleton index. -/
theorem C5_amended_witness :
    annLookup 2 (scoreIndex [(0, [(2, 3)])]) = some usizeMax :=
  C5_amended [(0, [(2, 3)])] (by decide) (0, [(2, 3)]) (by decide) (2, 3) rfl

/-- C6: a lexical-identity group with exactly one occurrence is never
classified alert in the rendered output, for any `distance_threshold` in the
usize range: the class computed by the renderer at that start is the empty
string, and the rendered element for any token at that start carries the
empty class. -/
theorem C6_singleton_never_alert (config : Config)
    (index : List (Nat × List (Nat × Nat)))
    (hth : config.distance_threshold ≤ usizeMax)
    (hnd : (allStarts index).Nodup) (g : Nat × List (Nat × Nat)) (hg : g ∈ index)
    (r : Nat × Nat) (hr : g.2 = [r]) :
    classOf config (scoreIndex index) r.1 = "" ∧
    ∀ t : Token, t.start = r.1 →
      renderToken config (scoreIndex index) t =
        spanHtml (encode_text t.feature) "" (encode_text t.surface) := by
  have hl := singleton_lookup hnd hg hr
  have hcl : classOf config (scoreIndex index) r.1 = "" := by
    unfold classOf
    rw [hl]
    show (if usizeMax < config.distance_threshold then "alert" else "") = ""
    rw [if_neg (Nat.not_lt.mpr hth)]
  refine ⟨hcl, ?_⟩
  intro t ht
  unfold renderToken
  rw [ht, hcl]

/-- Witness for C6 on a concrete singleton index and threshold 5. -/
theorem C6_witness :
    classOf ⟨5, [], [], []⟩ (scoreIndex [(0, [(2, 3)])]) 2 = "" :=
  (C6_singleton_never_alert ⟨5, [], [], []⟩ [(0, [(2, 3)])] (by decide) (by decide)
    (0, [(2, 3)]) (by decide) (2, 3) rfl).1

/-! ## Inverted index soundness and completeness -/

/-- Every range of a group after an insertion was already there, or is the
inserted range under the inserted key. -/
theorem indexInsert_mem {w : Nat} {r : Nat × Nat} :
    ∀ {idx : List (Nat × List (Nat × Nat))} {g' : Nat × List (Nat × Nat)},
      g' ∈ indexInsert w r idx → ∀ x ∈ g'.2,
        (∃ g ∈ idx, g.1 = g'.1 ∧ x ∈ g.2) ∨ (g'.1 = w ∧ x = r) := by
  intro idx
  induction idx with
  | nil =>
    intro g' hg' x hx
    have he : g' = (w, [r]) := List.mem_singleton.mp hg'
    subst he
    exact Or.inr ⟨rfl, List.mem_singleton.mp hx⟩
  | cons g0 rest ih =>
    intro g' hg' x hx
    simp only [indexInsert] at hg'
    by_cases h : g0.1 = w
    · rw [if_pos h] at hg'
      rcases List.mem_cons.mp hg' with he | hmem
      · subst he
        rcases List.mem_append.mp hx with hx0 | hxr
        · exact Or.inl ⟨g0, List.mem_cons_self _ _, rfl, hx0⟩
        · exact Or.inr ⟨h, List.mem_singleton.mp hxr⟩
      · exact Or.inl ⟨g', List.mem_cons_of_mem _ hmem, rfl, hx⟩
    · rw [if_neg h] at hg'
      rcases List.mem_cons.mp hg' with he | hmem
      · subst he
        exact Or.inl ⟨g', List.mem_cons_self _ _, rfl, hx⟩
      · rcases ih hmem x hx with ⟨g, hgmem, hge, hxg⟩ | hr
        · exact Or.inl ⟨g, List.mem_cons_of_mem _ hgmem, hge, hxg⟩
        · exact Or.inr hr

/-- Every range stored by the index-building loop comes from the accumulator
or from a kept token of the stream. -/
theorem buildIndexFrom_sound (config : Config) :
    ∀ (tokens : List Token) (acc : List (Nat × List (Nat × Nat)))
      (g' : Nat × List (Nat × Nat)), g' ∈ buildIndexFrom config acc tokens →
      ∀ x ∈ g'.2,
        (∃ g ∈ acc, g.1 = g'.1 ∧ x ∈ g.2) ∨
        (∃ u ∈ tokens, keepToken config u = true ∧ u.wordIdx = g'.1 ∧
          (u.start, u.stop) = x) := by
  intro tokens
  induction tokens with
  | nil =>
    intro acc g' hg' x hx
    exact Or.inl ⟨g', hg', rfl, hx⟩
  | cons t rest ih =>
    intro acc g' hg' x hx
    simp only [buildIndexFrom] at hg'
    by_cases hk : keepToken config t
    · rw [if_pos hk] at hg'
      rcases ih _ _ hg' x hx with ⟨g, hgmem, hge, hxg⟩ | ⟨u, humem, hku, hwu, hru⟩
      · rcases indexInsert_mem hgmem x hxg with ⟨g0, hg0, he0, hx0⟩ | ⟨hgw, hxr⟩
        · exact Or.inl ⟨g0, hg0, he0.trans hge, hx0⟩
        · exact Or.inr ⟨t, List.mem_cons_self _ _, hk, hgw ▸ hge, hxr.symm⟩
      · exact Or.inr ⟨u, List.mem_cons_of_mem _ humem, hku, hwu, hru⟩
    · rw [if_neg hk] at hg'
      rcases ih _ _ hg' x hx with hl | ⟨u, humem, hku, hwu, hru⟩
      · exact Or.inl hl
      · exact Or.inr ⟨u, List.mem_cons_of_mem _ humem, hku, hwu, hru⟩

/-- Every range in the inverted index comes from a kept token. -/
theorem buildIndex_sound (config : Config) {tokens : List Token}
    {g' : Nat × List (Nat × Nat)} (hg' : g' ∈ buildIndex config tokens)
    {x : Nat × Nat} (hx : x ∈ g'.2) :
    ∃ u ∈ tokens, keepToken config u = true ∧ u.wordIdx = g'.1 ∧
      (u.start, u.stop) = x := by
  rcases buildIndexFrom_sound config tokens [] g' hg' x hx with ⟨g, hgm, _⟩ | h
  · cases hgm
  · exact h

/-- Insertion preserves every range already present (under its key). -/
theorem indexInsert_preserve (w : Nat) (r : Nat × Nat)
    {g : Nat × List (Nat × Nat)} {x : Nat × Nat} (hx : x ∈ g.2) :
    ∀ {idx : List (Nat × List (Nat × Nat))}, g ∈ idx →
      ∃ g' ∈ indexInsert w r idx, g'.1 = g.1 ∧ x ∈ g'.2 := by
  intro idx
  induction idx with
  | nil => intro hg; cases hg
  | cons g0 rest ih =>
    intro hg
    by_cases h : g0.1 = w
    · simp only [indexInsert, if_pos h]
      rcases List.mem_cons.mp hg with rfl | hmem
      · exact ⟨(g.1, g.2 ++ [r]), List.mem_cons_self _ _, rfl, List.mem_append_left _ hx⟩
      · exact ⟨g, List.mem_cons_of_mem _ hmem, rfl, hx⟩
    · simp only [indexInsert, if_neg h]
      rcases List.mem_cons.mp hg with rfl | hmem
      · exact ⟨g, List.mem_cons_self _ _, rfl, hx⟩
      · rcases ih hmem with ⟨g', hg', he, hx'⟩
        exact ⟨g', List.mem_cons_of_mem _ hg', he, hx'⟩

/-- Insertion makes the inserted range present under the inserted key. -/
theorem indexInsert_adds (w : Nat) (r : Nat × Nat) :
    ∀ idx : List (Nat × List (Nat × Nat)),
      ∃ g' ∈ indexInsert w r idx, g'.1 = w ∧ r ∈ g'.2 := by
  intro idx
  induction idx with
  | nil =>
    exact ⟨(w, [r]), List.mem_singleton_self _, rfl, List.mem_singleton_self _⟩
  | cons g0 rest ih =>
    by_cases h : g0.1 = w
    · refine ⟨(g0.1, g0.2 ++ [r]), ?_, h, List.mem_append_right _ (List.mem_singleton_self _)⟩
      simp only [indexInsert, if_pos h]
      exact List.mem_cons_self _ _
    · rcases ih with ⟨g', hg', he, hr⟩
      refine ⟨g', ?_, he, hr⟩
      simp only [indexInsert, if_neg h]
      exact List.mem_cons_of_mem _ hg'

/-- The index-building loop preserves every range of the accumulator. -/
theorem buildIndexFrom_preserve (config : Config) :
    ∀ (tokens : List Token) (acc : List (Nat × List (Nat × Nat)))
      (g : Nat × List (Nat × Nat)) (x : Nat × Nat), g ∈ acc → x ∈ g.2 →
      ∃ g' ∈ buildIndexFrom config acc tokens, g'.1 = g.1 ∧ x ∈ g'.2 := by
  intro tokens
  induction tokens with
  | nil => intro acc g x hg hx; exact ⟨g, hg, rfl, hx⟩
  | cons t rest ih =>
    intro acc g x hg hx
    simp only [buildIndexFrom]
    by_cases hk : keepToken config t
    · rw [if_pos hk]
      rcases indexInsert_preserve t.wordIdx (t.start, t.stop) hx hg with ⟨g1, hg1, he1, hx1⟩
      rcases ih _ g1 x hg1 hx1 with ⟨g', hg', he', hx'⟩
      exact ⟨g', hg', he'.trans he1, hx'⟩
    · rw [if_neg hk]
      exact ih _ g x hg hx

/-- Every kept token contributes its range to the inverted index under its
lexical-identity key. -/
theorem buildIndex_complete (config : Config) :
    ∀ (tokens : List Token) (t : Token), t ∈ tokens → keepToken config t = true →
      ∃ g ∈ buildIndex config tokens, g.1 = t.wordIdx ∧ (t.start, t.stop) ∈ g.2 := by
  have aux : ∀ (tokens : List Token) (acc : List (Nat × List (Nat × Nat)))
      (t : Token), t ∈ tokens → keepToken config t = true →
      ∃ g ∈ buildIndexFrom config acc tokens, g.1 = t.wordIdx ∧
        (t.start, t.stop) ∈ g.2 := by
    intro tokens
    induction tokens with
    | nil => intro acc t ht; cases ht
    | cons u rest ih =>
      intro acc t ht hk
      simp only [buildIndexFrom]
      rcases List.mem_cons.mp ht with rfl | hmem
      · rw [if_pos hk]
        rcases indexInsert_adds t.wordIdx (t.start, t.stop) acc with ⟨g1, hg1, he1, hr1⟩
        rcases buildIndexFrom_preserve config rest _ g1 _ hg1 hr1 with ⟨g', hg', he', hx'⟩
        exact ⟨g', hg', he'.trans he1, hx'⟩
      · by_cases hku : keepToken config u
        · rw [if_pos hku]; exact ih _ t hmem hk
        · rw [if_neg hku]; exact ih _ t hmem hk
  intro tokens t ht hk
  exact aux tokens [] t ht hk

/-- The filter keeps a token exactly when neither ignore list matches. -/
theorem keepToken_iff (config : Config) (t : Token) :
    keepToken config t = true ↔
      ¬ (posOf t.feature ∈ config.ignore_pos ∨ t.surface ∈ config.ignore_words) := by
  unfold keepToken
  split_ifs with h1 h2
  · have hA : posOf t.feature ∈ config.ignore_pos := by
      rcases List.any_eq_true.mp h1 with ⟨s, hs, hdec⟩
      have he : s = posOf t.feature := of_decide_eq_true hdec
      exact he ▸ hs
    simp [hA]
  · have hB : t.surface ∈ config.ignore_words := by
      rcases List.any_eq_true.mp h2 with ⟨w, hw, hdec⟩
      have he : w = t.surface := of_decide_eq_true hdec
      exact he ▸ hw
    simp [hB]
  · have hA : posOf t.feature ∉ config.ignore_pos := by
      intro hmem
      exact h1 (List.any_eq_true.mpr ⟨_, hmem, decide_eq_true rfl⟩)
    have hB : t.surface ∉ config.ignore_words := by
      intro hmem
      exact h2 (List.any_eq_true.mpr ⟨_, hmem, decide_eq_true rfl⟩)
    simp [hA, hB]

/-- C7: a token is excluded from the inverted index exactly when its POS
leading component is listed in `ignore_pos` or its surface is listed in
`ignore_words`; such a token is still rendered, with the empty class (never
alert), provided token start offsets are pairwise distinct (the formal
counterpart of non-overlapping token ranges). -/
theorem C7_filter_exclusivity (config : Config) (tokens : List Token)
    (hnd : (tokens.map Token.start).Nodup) (t : Token) (ht : t ∈ tokens) :
    ((¬ ∃ g ∈ buildIndex config tokens, (t.start, t.stop) ∈ g.2) ↔
      (posOf t.feature ∈ config.ignore_pos ∨ t.surface ∈ config.ignore_words)) ∧
    ((posOf t.feature ∈ config.ignore_pos ∨ t.surface ∈ config.ignore_words) →
      classOf config (scoreIndex (buildIndex config tokens)) t.start = "" ∧
      renderToken config (scoreIndex (buildIndex config tokens)) t =
        spanHtml (encode_text t.feature) "" (encode_text t.surface)) := by
  have hinj := List.inj_on_of_nodup_map hnd
  have hstart : (posOf t.feature ∈ config.ignore_pos ∨
      t.surface ∈ config.ignore_words) →
      t.start ∉ allStarts (buildIndex config tokens) := by
    intro hig hmem
    rcases List.mem_flatMap.mp hmem with ⟨g, hgmem, hs⟩
    rcases List.mem_map.mp hs with ⟨x, hxg, hxs⟩
    rcases buildIndex_sound config hgmem hxg with ⟨u, humem, hku, _, hru⟩
    have hus : u.start = t.start := by
      have : (u.start, u.stop).1 = x.1 := by rw [hru]
      simpa [hxs] using this
    have hut : u = t := hinj humem ht hus
    exact (keepToken_iff config t).mp (hut ▸ hku) hig
  refine ⟨⟨?_, ?_⟩, ?_⟩
  · intro hnc
    by_contra hnig
    have hk : keepToken config t = true := (keepToken_iff config t).mpr hnig
    rcases buildIndex_complete config tokens t ht hk with ⟨g, hg, _, hx⟩
    exact hnc ⟨g, hg, hx⟩
  · rintro hig ⟨g, hg, hx⟩
    apply hstart hig
    exact List.mem_flatMap.mpr ⟨g, hg, List.mem_map.mpr ⟨(t.start, t.stop), hx, rfl⟩⟩
  · intro hig
    have hnone : annLookup t.start (scoreIndex (buildIndex config tokens)) = none :=
      annLookup_scoreIndex_none (hstart hig)
    have hcl : classOf config (scoreIndex (buildIndex config tokens)) t.start = "" := by
      unfold classOf
      rw [hnone]
    refine ⟨hcl, ?_⟩
    unfold renderToken
    rw [hcl]

/-- Witness for C7: a surface-ignored token renders with the empty class. -/
theorem C7_witness :
    renderToken ⟨5, [], [], ["a"]⟩
        (scoreIndex (buildIndex ⟨5, [], [], ["a"]⟩ [⟨"a", "p", 0, 0, 1⟩]))
        ⟨"a", "p", 0, 0, 1⟩ =
      spanHtml (encode_text "p") "" (encode_text "a") :=
  ((C7_filter_exclusivity ⟨5, [], [], ["a"]⟩ [⟨"a", "p", 0, 0, 1⟩] (by decide)
      ⟨"a", "p", 0, 0, 1⟩ (by decide)).2 (Or.inr (by decide))).2

/-! ## Renderer structure -/

/-- The render loop equals the concatenation of the per-token markup. -/
theorem renderBody_eq (config : Config) (ann : List (Nat × Nat)) :
    ∀ (tokens : List Token) (acc : String),
      renderBody config ann acc tokens =
        acc ++ strConcat (tokens.map (renderToken config ann)) := by
  intro tokens
  induction tokens with
  | nil =>
    intro acc
    show acc = acc ++ ""
    rw [String.append_empty]
  | cons t rest ih =>
    intro acc
    simp only [renderBody, List.map_cons, strConcat]
    rw [ih, String.append_assoc]

/-- C8: the rendered document is exactly the wrapper head, then — for every
token of the original unfiltered stream, exactly once and in original order —
one inline span carrying the escaped feature as tooltip and the escaped
surface as content together with the computed class, followed by the
separator span, then the wrapper foot. -/
theorem C8_render_structure (config : Config) (tokens : List Token) :
    lintHtml config tokens =
      HTML_HEAD ++
        strConcat (tokens.map (fun t =>
          spanHtml (encode_text t.feature)
            (classOf config (scoreIndex (buildIndex config tokens)) t.start)
            (encode_text t.surface))) ++
      HTML_FOOT := by
  unfold lintHtml renderWith
  rw [renderBody_eq]
  rfl

/-- Tokens render identically under annotation maps that agree at the
token's start offset. -/
theorem renderToken_congr (config : Config) {a1 a2 : List (Nat × Nat)}
    (t : Token) (h : annLookup t.start a1 = annLookup t.start a2) :
    renderToken config a1 t = renderToken config a2 t := by
  unfold renderToken classOf
  rw [h]

/-- C9: the pipeline output does not depend on the iteration order of the
hash-map-based index: scoring any permutation of the built index (and
rendering from the resulting map, which is only ever read pointwise, never
iterated) yields byte-identical markup, provided start offsets are pairwise
distinct; in particular re-running the pipeline on identical input and
config yields identical output. -/
theorem C9_order_invariance (config : Config) (tokens : List Token)
    (idx2 : List (Nat × List (Nat × Nat)))
    (hperm : (buildIndex config tokens).Perm idx2)
    (hnd : (allStarts (buildIndex config tokens)).Nodup) :
    renderWith config (scoreIndex idx2) tokens = lintHtml config tokens := by
  have hannperm : (annList (buildIndex config tokens)).Perm (annList idx2) :=
    hperm.flatMap_right _
  have hkeys1 : ((annList (buildIndex config tokens)).map Prod.fst).Nodup := by
    rw [annList_keys]; exact hnd
  have hnd2 : (allStarts idx2).Nodup := by
    rw [← annList_keys]
    exact ((hannperm.map Prod.fst).nodup_iff).mp hkeys1
  have hlook : ∀ s, annLookup s (scoreIndex idx2) =
      annLookup s (scoreIndex (buildIndex config tokens)) := by
    intro s
    rw [annLookup_scoreIndex hnd2, annLookup_scoreIndex hnd]
    exact (annLookup_perm s hannperm hkeys1).symm
  unfold lintHtml renderWith
  rw [renderBody_eq, renderBody_eq]
  have hmap : tokens.map (renderToken config (scoreIndex idx2)) =
      tokens.map (renderToken config (scoreIndex (buildIndex config tokens))) :=
    List.map_congr_left (fun t _ => renderToken_congr config t (hlook t.start))
  rw [hmap]

/-- Witness for C9 on a two-group index presented in reversed order. -/
theorem C9_witness :
    renderWith ⟨5, [], [], []⟩
        (scoreIndex [(1, [(2, 3)]), (0, [(0, 1)])])
        [⟨"a", "n", 0, 0, 1⟩, ⟨"b", "n", 1, 2, 3⟩] =
      lintHtml ⟨5, [], [], []⟩ [⟨"a", "n", 0, 0, 1⟩, ⟨"b", "n", 1, 2, 3⟩] :=
  C9_order_invariance ⟨5, [], [], []⟩ [⟨"a", "n", 0, 0, 1⟩, ⟨"b", "n", 1, 2, 3⟩]
    [(1, [(2, 3)]), (0, [(0, 1)])] (by decide) (by decide)

/-- C2 evaluated at the failing input: `encode_text` leaves the single-quote
character `U+0027` unchanged, so a feature string containing it places the
attribute delimiter inside the single-quoted `title` attribute value and
terminates the attribute early — the rendered markup for such a token is
shown explicitly, with the stray delimiter after the escaped prefix. -/
theorem C2_code_eval :
    encode_text (String.singleton (Char.ofNat 39)) = String.singleton (Char.ofNat 39) ∧
    (Char.ofNat 39) ∈ (encode_text ("a" ++ String.singleton (Char.ofNat 39) ++ "b")).toList ∧
    renderToken ⟨5, [], [], []⟩ [] ⟨"s", "a" ++ String.singleton (Char.ofNat 39) ++ "b", 0, 0, 1⟩ =
      "<span title=" ++ sq ++ "a" ++ sq ++ "b" ++ sq ++ " class=" ++ sq ++ sq ++ ">" ++
        "s" ++ "</span>" ++ "<span class=" ++ sq ++ "separator" ++ sq ++ ">|</span>" := by
  refine ⟨?_, ?_, ?_⟩
  · rfl
  · decide
  · rfl

end Repeatlint
